import Mathlib

/-!
Verification of the masking/unmasking engine (`src/parser.py`), the chunk
segmenter and translate-critique-fix pipeline (`src/translator.py`) of the
Arxiv paper translator.

Texts are modelled as `List Char` (`Str`).  The LaTeX parse produced by the
external `pylatexenc` library is modelled as a `Forest` of nodes carrying the
byte offsets (`pos`, `len`) that `pylatexenc` guarantees; `mask_content`'s own
traversal, range collection, descending-sort, splice-replacement and table
construction are translated from the source.  The LLM services invoked by the
pipeline are modelled as oracles (one result per invocation index).
-/

abbrev Str := List Char

/-- Characters of a string literal. -/
def str (s : String) : Str := s.data

/-! ### Decimal formatting: Python `f"{counter:04d}"` -/

/-- The decimal digit character for `d < 10`. -/
def digitChar (d : Nat) : Char := Char.ofNat (48 + d)

/-- Little-endian decimal digits of `n` (empty for `0`); `fuel ≥ n` suffices. -/
def natLEF : Nat → Nat → Str
  | _, 0 => []
  | 0, _ + 1 => []
  | f + 1, n + 1 => digitChar ((n + 1) % 10) :: natLEF f ((n + 1) / 10)

/-- Decimal representation of `n`, most significant digit first. -/
def natRepr (n : Nat) : Str := if n = 0 then ['0'] else (natLEF n n).reverse

/-- Python `"%04d" % n`: left-pad the decimal representation with zeros to width 4. -/
def pad4 (n : Nat) : Str := List.replicate (4 - (natRepr n).length) '0' ++ natRepr n

/-- Value of a little-endian digit string. -/
def valLE : Str → Nat
  | [] => 0
  | c :: cs => (c.toNat - 48) + 10 * valLE cs

theorem toNat_digitChar {d : Nat} (h : d < 10) : (digitChar d).toNat = 48 + d := by
  interval_cases d <;> decide

theorem valLE_natLEF : ∀ f n, n ≤ f → valLE (natLEF f n) = n := by
  intro f
  induction f with
  | zero =>
    intro n hn
    interval_cases n
    simp [natLEF, valLE]
  | succ f ih =>
    intro n hn
    match n with
    | 0 => simp [natLEF, valLE]
    | m + 1 =>
      have hdiv : (m + 1) / 10 ≤ f := by
        have h1 : (m + 1) / 10 < m + 1 := Nat.div_lt_self (Nat.succ_pos m) (by omega)
        omega
      simp only [natLEF, valLE, ih _ hdiv]
      rw [toNat_digitChar (Nat.mod_lt _ (by omega))]
      omega

theorem valLE_append (a b : Str) : valLE (a ++ b) = valLE a + 10 ^ a.length * valLE b := by
  induction a with
  | nil => simp [valLE]
  | cons c cs ih =>
    simp only [List.cons_append, valLE, List.length_cons, List.append_eq]
    rw [ih]
    ring

theorem valLE_replicate_zero (k : Nat) : valLE (List.replicate k '0') = 0 := by
  induction k with
  | zero => simp [valLE]
  | succ k ih => simp [List.replicate_succ, valLE, ih]

/-- Value of a most-significant-first digit string. -/
def valMSD (s : Str) : Nat := valLE s.reverse

theorem valMSD_natRepr (n : Nat) : valMSD (natRepr n) = n := by
  unfold natRepr valMSD
  split
  · simp_all [valLE]
  · rw [List.reverse_reverse]
    exact valLE_natLEF n n le_rfl

theorem valMSD_pad4 (n : Nat) : valMSD (pad4 n) = n := by
  unfold pad4 valMSD
  rw [List.reverse_append, List.reverse_replicate, valLE_append, valLE_replicate_zero]
  simpa using valMSD_natRepr n

theorem pad4_injective {m n : Nat} (h : pad4 m = pad4 n) : m = n := by
  have := congrArg valMSD h
  rwa [valMSD_pad4, valMSD_pad4] at this

theorem mem_natLEF {c : Char} : ∀ f n, c ∈ natLEF f n → ∃ d, d < 10 ∧ c = digitChar d := by
  intro f
  induction f with
  | zero =>
    intro n hc
    match n with
    | 0 => simp [natLEF] at hc
    | m + 1 => simp [natLEF] at hc
  | succ f ih =>
    intro n hc
    match n with
    | 0 => simp [natLEF] at hc
    | m + 1 =>
      simp only [natLEF, List.mem_cons] at hc
      rcases hc with hc | hc
      · exact ⟨(m + 1) % 10, Nat.mod_lt _ (by omega), hc⟩
      · exact ih _ hc

theorem mem_pad4 {c : Char} {n : Nat} (h : c ∈ pad4 n) : ∃ d, d < 10 ∧ c = digitChar d := by
  unfold pad4 at h
  rcases List.mem_append.1 h with h | h
  · exact ⟨0, by omega, by simpa using List.eq_of_mem_replicate h⟩
  · unfold natRepr at h
    split at h
    · exact ⟨0, by omega, by simpa using h⟩
    · exact mem_natLEF _ _ (List.mem_reverse.1 h)

theorem pad4_no_special {c : Char} {n : Nat} (h : c ∈ pad4 n) :
    c ≠ '_' ∧ c ≠ '[' ∧ c ≠ ']' := by
  obtain ⟨d, hd, rfl⟩ := mem_pad4 h
  interval_cases d <;> refine ⟨by decide, by decide, by decide⟩

/-! ### Mask tokens: Python `f"[MASK_{type_hint}_{mask_counter:04d}]"` -/

/-- The mask token built for type tag `tag` at counter value `n`. -/
def tokenStr (tag : Str) (n : Nat) : Str :=
  str "[MASK_" ++ tag ++ str "_" ++ pad4 n ++ str "]"

/-- Splitting a concatenation at the first occurrence of a character is unique. -/
theorem split_at_first_mem {c : Char} :
    ∀ (A1 A2 B1 B2 : Str), c ∉ A1 → c ∉ A2 →
      A1 ++ c :: B1 = A2 ++ c :: B2 → A1 = A2 ∧ B1 = B2 := by
  intro A1
  induction A1 with
  | nil =>
    intro A2 B1 B2 _ h2 heq
    match A2 with
    | [] => simpa using heq
    | a :: A2' =>
      simp only [List.nil_append, List.cons_append, List.cons.injEq] at heq
      exact absurd (heq.1 ▸ List.mem_cons_self a A2') h2
  | cons a A1' ih =>
    intro A2 B1 B2 h1 h2 heq
    match A2 with
    | [] =>
      simp only [List.nil_append, List.cons_append, List.cons.injEq] at heq
      exact absurd (heq.1 ▸ List.mem_cons_self a A1') h1
    | b :: A2' =>
      simp only [List.cons_append, List.cons.injEq] at heq
      obtain ⟨rfl, heq⟩ := heq
      have h1' : c ∉ A1' := fun hc => h1 (List.mem_cons_of_mem _ hc)
      have h2' : c ∉ A2' := fun hc => h2 (List.mem_cons_of_mem _ hc)
      obtain ⟨rfl, rfl⟩ := ih A2' B1 B2 h1' h2' heq
      exact ⟨rfl, rfl⟩

theorem tokenStr_inj_counter {t1 t2 : Str} {n1 n2 : Nat}
    (h : tokenStr t1 n1 = tokenStr t2 n2) : n1 = n2 := by
  have hrev := congrArg List.reverse h
  simp only [tokenStr, str, List.reverse_append, List.reverse_cons, List.reverse_nil,
    List.nil_append, List.append_assoc, List.singleton_append, List.cons_append] at hrev
  have htail : (pad4 n1).reverse ++ '_' :: (t1.reverse ++ ['_', 'K', 'S', 'A', 'M', '[']) =
      (pad4 n2).reverse ++ '_' :: (t2.reverse ++ ['_', 'K', 'S', 'A', 'M', '[']) :=
    (List.cons.inj hrev).2
  have hsplit := split_at_first_mem ((pad4 n1).reverse) ((pad4 n2).reverse) _ _
    (fun hc => ((pad4_no_special (List.mem_reverse.1 hc)).1 rfl))
    (fun hc => ((pad4_no_special (List.mem_reverse.1 hc)).1 rfl))
    htail
  exact pad4_injective (List.reverse_injective hsplit.1)

/-! ### Bracketed tokens and where they can occur -/

/-- A bracketed token: a single leading left bracket, a single trailing right
bracket, and no bracket inside.  Every generated mask token has this shape. -/
def Bracketed (t : Str) : Prop :=
  ∃ mid : Str, t = '[' :: (mid ++ [']']) ∧ '[' ∉ mid ∧ ']' ∉ mid

theorem Bracketed.two_le_length {t : Str} (h : Bracketed t) : 2 ≤ t.length := by
  obtain ⟨mid, rfl, -, -⟩ := h
  simp only [List.length_cons, List.length_append, List.length_singleton]
  omega

theorem Bracketed.ne_nil {t : Str} (h : Bracketed t) : t ≠ [] := by
  obtain ⟨mid, rfl, -, -⟩ := h
  simp

theorem Bracketed.head_eq {t : Str} (h : Bracketed t) : t[0]? = some '[' := by
  obtain ⟨mid, rfl, -, -⟩ := h
  simp

theorem Bracketed.last_eq {t : Str} (h : Bracketed t) : t[t.length - 1]? = some ']' := by
  obtain ⟨mid, rfl, -, -⟩ := h
  have hshape : '[' :: (mid ++ [']']) = ('[' :: mid) ++ [']'] := by simp
  rw [hshape, List.getElem?_append_right (by simp)]
  simp

theorem Bracketed.inner_no_lbrack {t : Str} (h : Bracketed t) {i : Nat}
    (h0 : 0 < i) (hi : i < t.length) : t[i]? ≠ some '[' := by
  obtain ⟨mid, rfl, hl, -⟩ := h
  obtain ⟨j, rfl⟩ : ∃ j, i = j + 1 := ⟨i - 1, by omega⟩
  rw [List.getElem?_cons_succ, List.getElem?_append]
  simp only [List.length_cons, List.length_append, List.length_singleton,
    List.length_nil] at hi
  split
  · intro hc
    exact hl (List.mem_iff_getElem?.2 ⟨j, hc⟩)
  · intro hc
    have hj : j - mid.length = 0 := by omega
    rw [hj] at hc
    simp at hc

theorem Bracketed.inner_no_rbrack {t : Str} (h : Bracketed t) {i : Nat}
    (h0 : 0 < i) (hi : i + 1 < t.length) : t[i]? ≠ some ']' := by
  obtain ⟨mid, rfl, -, hr⟩ := h
  obtain ⟨j, rfl⟩ : ∃ j, i = j + 1 := ⟨i - 1, by omega⟩
  rw [List.getElem?_cons_succ, List.getElem?_append]
  simp only [List.length_cons, List.length_append, List.length_singleton,
    List.length_nil] at hi
  split
  · intro hc
    exact hr (List.mem_iff_getElem?.2 ⟨j, hc⟩)
  · omega

theorem getElem?_mid (X u Y : Str) {j : Nat} (hj : j < u.length) :
    (X ++ u ++ Y)[X.length + j]? = u[j]? := by
  rw [List.append_assoc, List.getElem?_append_right (Nat.le_add_right _ _)]
  rw [Nat.add_sub_cancel_left, List.getElem?_append]
  rw [if_pos hj]

/-- Where a bracketed token `u` can occur inside `X ++ t ++ Y` when `t` is itself
bracketed: entirely inside `X`, entirely inside `Y`, or exactly at `t`. -/
theorem bracket_occurrence {u t X Y a b : Str} (hu : Bracketed u) (ht : Bracketed t)
    (heq : X ++ t ++ Y = a ++ u ++ b) :
    (a.length + u.length ≤ X.length ∧ u <:+: X) ∨
    (X.length + t.length ≤ a.length ∧ u <:+: Y) ∨ (u = t ∧ a = X ∧ b = Y) := by
  rcases Nat.lt_trichotomy a.length X.length with hax | hax | hax
  · by_cases hfit : a.length + u.length ≤ X.length
    · -- the occurrence lies entirely inside X
      left
      refine ⟨hfit, ?_⟩
      have h := congrArg (List.take X.length) heq
      rw [List.append_assoc, List.take_left] at h
      rw [List.append_assoc, List.take_append_eq_append_take,
        List.take_of_length_le (Nat.le_of_lt hax), List.take_append_eq_append_take,
        List.take_of_length_le (by omega)] at h
      exact ⟨a, _, by rw [h, List.append_assoc]⟩
    · -- the occurrence starts inside X but covers t's head bracket: impossible
      exfalso
      have e1 : (X ++ t ++ Y)[X.length]? = some '[' := by
        have h0 : (0 : Nat) < t.length := by have := ht.two_le_length; omega
        have := getElem?_mid X t Y h0
        rw [Nat.add_zero] at this
        rw [this, ht.head_eq]
      have e2 : (a ++ u ++ b)[X.length]? = u[X.length - a.length]? := by
        have := getElem?_mid a u b (j := X.length - a.length) (by omega)
        rwa [show a.length + (X.length - a.length) = X.length by omega] at this
      rw [heq, e2] at e1
      exact hu.inner_no_lbrack (by omega) (by omega) e1
  · -- the occurrence starts exactly at t
    right; right
    rw [List.append_assoc, List.append_assoc] at heq
    obtain ⟨rfl, htail⟩ := List.append_inj heq hax.symm
    rcases Nat.lt_trichotomy u.length t.length with hut | hut | hut
    · exfalso
      have e1 : (t ++ Y)[u.length - 1]? = t[u.length - 1]? := by
        rw [List.getElem?_append, if_pos (by omega)]
      have e2 : (u ++ b)[u.length - 1]? = some ']' := by
        rw [List.getElem?_append, if_pos (by have := hu.two_le_length; omega)]
        have := hu.last_eq
        exact this
      rw [htail, e2] at e1
      have h2u := hu.two_le_length
      exact ht.inner_no_rbrack (i := u.length - 1) (by omega) (by omega) e1.symm
    · obtain ⟨rfl, rfl⟩ := List.append_inj htail.symm hut
      exact ⟨rfl, rfl, rfl⟩
    · exfalso
      have e1 : (t ++ Y)[t.length - 1]? = some ']' := by
        rw [List.getElem?_append, if_pos (by have := ht.two_le_length; omega)]
        exact ht.last_eq
      have e2 : (u ++ b)[t.length - 1]? = u[t.length - 1]? := by
        rw [List.getElem?_append, if_pos (by omega)]
      rw [htail, e2] at e1
      have h2t := ht.two_le_length
      exact hu.inner_no_rbrack (i := t.length - 1) (by omega) (by omega) e1
  · by_cases hfit : X.length + t.length ≤ a.length
    · -- the occurrence lies entirely inside Y
      right; left
      refine ⟨hfit, ?_⟩
      have h := congrArg (List.drop (X.length + t.length)) heq
      rw [show X.length + t.length = (X ++ t).length by simp, List.drop_left] at h
      rw [List.append_assoc, List.drop_append_eq_append_drop,
        show (X ++ t).length - a.length = 0 by simp; omega, List.drop_zero] at h
      exact ⟨_, b, by rw [h, List.append_assoc]⟩
    · -- the occurrence starts inside t's interior: impossible
      exfalso
      have e1 : (a ++ u ++ b)[a.length]? = some '[' := by
        have h0 : (0 : Nat) < u.length := by have := hu.two_le_length; omega
        have := getElem?_mid a u b h0
        rw [Nat.add_zero] at this
        rw [this, hu.head_eq]
      have e2 : (X ++ t ++ Y)[a.length]? = t[a.length - X.length]? := by
        have := getElem?_mid X t Y (j := a.length - X.length) (by omega)
        rwa [show X.length + (a.length - X.length) = a.length by omega] at this
      rw [← heq, e2] at e1
      exact ht.inner_no_lbrack (by omega) (by omega) e1

/-! ### Python `str.replace` and `unmask_content` (parser.py lines 215-224) -/

/-- One scan of Python `text.replace(pat, rep)` for nonempty `pat`, with fuel
(`fuel ≥ text.length` suffices): left to right, replace each leftmost
non-overlapping occurrence. -/
def replaceFuel (pat rep : Str) : Nat → Str → Str
  | _, [] => []
  | 0, s => s
  | f + 1, c :: cs =>
    if pat.isPrefixOf (c :: cs) then
      rep ++ replaceFuel pat rep f (List.drop (pat.length - 1) cs)
    else
      c :: replaceFuel pat rep f cs

/-- Python `text.replace(pat, rep)`.  For an empty pattern Python interleaves
the replacement at every position; every pattern this development feeds in is
a nonempty mask token, handled by `replaceFuel`. -/
def replaceAll (pat rep s : Str) : Str :=
  if pat = [] then rep ++ s.flatMap (fun c => c :: rep)
  else replaceFuel pat rep s.length s

theorem replaceFuel_fuel_irrel {pat rep : Str} :
    ∀ f1 f2 s, s.length ≤ f1 → s.length ≤ f2 →
      replaceFuel pat rep f1 s = replaceFuel pat rep f2 s := by
  intro f1
  induction f1 with
  | zero =>
    intro f2 s h1 _
    have : s = [] := List.eq_nil_of_length_eq_zero (by omega)
    subst this
    cases f2 <;> rfl
  | succ f1 ih =>
    intro f2 s h1 h2
    match s with
    | [] => cases f2 <;> rfl
    | c :: cs =>
      match f2 with
      | 0 => simp at h2
      | f2 + 1 =>
        simp only [replaceFuel]
        split
        · rw [ih f2 _ (by simp [List.length_drop] at h1 ⊢; omega)
            (by simp [List.length_drop] at h2 ⊢; omega)]
        · rw [ih f2 cs (by simp at h1; omega) (by simp at h2; omega)]

theorem replaceFuel_of_not_infix {pat rep : Str} (hp : pat ≠ []) :
    ∀ f s, ¬ pat <:+: s → replaceFuel pat rep f s = s := by
  intro f
  induction f with
  | zero =>
    intro s _
    cases s <;> rfl
  | succ f ih =>
    intro s hs
    match s with
    | [] => rfl
    | c :: cs =>
      have hnp : ¬ (List.isPrefixOf pat (c :: cs) = true) := fun hpre =>
        hs (List.isPrefixOf_iff_prefix.1 hpre).isInfix
      simp only [replaceFuel]
      rw [if_neg hnp, ih cs (fun hc => hs (List.infix_cons hc))]

theorem replaceAll_of_not_infix {pat rep s : Str} (h : ¬ pat <:+: s) :
    replaceAll pat rep s = s := by
  have hp : pat ≠ [] := fun he => h (he ▸ List.nil_infix)
  rw [replaceAll, if_neg hp, replaceFuel_of_not_infix hp _ _ h]

theorem replaceFuel_left {pat rep : Str} (hpb : Bracketed pat) :
    ∀ (A : Str) (f : Nat) (R : Str), ¬ pat <:+: A → (A ++ pat ++ R).length ≤ f →
      replaceFuel pat rep f (A ++ pat ++ R) = A ++ rep ++ replaceFuel pat rep R.length R := by
  intro A
  induction A with
  | nil =>
    intro f R _ hf
    obtain ⟨mid, hpat, -, -⟩ := hpb
    match f with
    | 0 =>
      rw [hpat] at hf
      simp at hf
    | f + 1 =>
      have hshape : ([] : Str) ++ pat ++ R = '[' :: (mid ++ [']'] ++ R) := by
        rw [hpat]; simp
      rw [hshape]
      simp only [replaceFuel]
      have hpre : List.isPrefixOf pat ('[' :: (mid ++ [']'] ++ R)) = true := by
        apply List.isPrefixOf_iff_prefix.2
        rw [hpat]
        exact ⟨R, by simp⟩
      rw [if_pos hpre]
      have hdrop : List.drop (pat.length - 1) (mid ++ [']'] ++ R) = R := by
        rw [hpat]
        simp only [List.length_cons, Nat.add_sub_cancel]
        exact List.drop_left _ _
      have hlen : List.length (mid ++ [']'] ++ R) ≤ f := by
        rw [hshape] at hf
        simpa using hf
      have hr : List.length R ≤ f := by
        simp at hlen
        omega
      rw [hdrop, replaceFuel_fuel_irrel f R.length R hr le_rfl]
      simp
  | cons x A' ih =>
    intro f R hA hf
    match f with
    | 0 => simp at hf
    | f + 1 =>
      have hshape : (x :: A') ++ pat ++ R = x :: (A' ++ pat ++ R) := by simp
      rw [hshape]
      simp only [replaceFuel]
      have hnp : ¬ (List.isPrefixOf pat (x :: (A' ++ pat ++ R)) = true) := by
        intro hpre
        obtain ⟨bb, hbb⟩ := List.isPrefixOf_iff_prefix.1 hpre
        have heq : (x :: A') ++ pat ++ R = [] ++ pat ++ bb := by
          rw [hshape, List.nil_append]
          exact hbb.symm
        rcases bracket_occurrence hpb hpb heq with ⟨-, hocc⟩ | ⟨hlen, -⟩ | ⟨-, hax, -⟩
        · exact hA hocc
        · simp at hlen
        · simp at hax
      rw [if_neg hnp,
        ih f R (fun hc => hA (List.infix_cons hc)) (by rw [hshape] at hf; simpa using hf)]
      simp

theorem replaceAll_left {pat rep A R : Str} (hpb : Bracketed pat) (hA : ¬ pat <:+: A) :
    replaceAll pat rep (A ++ pat ++ R) = A ++ rep ++ replaceAll pat rep R := by
  rw [replaceAll, replaceAll, if_neg hpb.ne_nil, if_neg hpb.ne_nil]
  exact replaceFuel_left hpb A _ R hA le_rfl

theorem replaceAll_unique {pat rep A B : Str} (hpb : Bracketed pat)
    (hA : ¬ pat <:+: A) (hB : ¬ pat <:+: B) :
    replaceAll pat rep (A ++ pat ++ B) = A ++ rep ++ B := by
  rw [replaceAll_left hpb hA, replaceAll_of_not_infix hB]

/-- Translation of `unmask_content` (parser.py): iterate the mask table in
insertion order, each step being Python `text = text.replace(token, original)`. -/
def unmask_content (text : Str) (masks : List (Str × Str)) : Str :=
  masks.foldl (fun t p => replaceAll p.1 p.2 t) text

theorem unmask_content_of_no_key {masks : List (Str × Str)} :
    ∀ text, (∀ p ∈ masks, ¬ p.1 <:+: text) → unmask_content text masks = text := by
  induction masks with
  | nil => intro text _; rfl
  | cons p rest ih =>
    intro text h
    have h1 : replaceAll p.1 p.2 text = text :=
      replaceAll_of_not_infix (h p (List.mem_cons_self p rest))
    simp only [unmask_content, List.foldl_cons, h1]
    exact ih text (fun q hq => h q (List.mem_cons_of_mem p hq))

/-- C10: unmask_content replaces every occurrence of each token key with that
token's recorded original (all occurrences, not only the first); in particular,
if the text contains no token of the table as a substring, unmask_content
returns the text unchanged. -/
theorem c10_unmask_all_occurrences :
    (∀ (t o A B C : Str), Bracketed t → ¬ t <:+: A → ¬ t <:+: B → ¬ t <:+: C →
      unmask_content (A ++ t ++ B ++ t ++ C) [(t, o)] = A ++ o ++ B ++ o ++ C) ∧
    (∀ (text : Str) (masks : List (Str × Str)),
      (∀ p ∈ masks, ¬ p.1 <:+: text) → unmask_content text masks = text) := by
  constructor
  · intro t o A B C hb hA hB hC
    have h1 : unmask_content (A ++ t ++ B ++ t ++ C) [(t, o)] =
        replaceAll t o (A ++ t ++ B ++ t ++ C) := rfl
    have hsh : A ++ t ++ B ++ t ++ C = A ++ t ++ (B ++ t ++ C) := by simp
    rw [h1, hsh, replaceAll_left hb hA, replaceAll_left hb hB,
      replaceAll_of_not_infix hC]
    simp
  · intro text masks h
    exact unmask_content_of_no_key text h

/-- C10 witness: both occurrences of the token are replaced in a concrete text,
and a text without the token is unchanged. -/
theorem c10_unmask_all_occurrences_witness :
    unmask_content (str "ab" ++ str "[MASK_MATH_0000]" ++ str "cd" ++
        str "[MASK_MATH_0000]" ++ str "e")
      [(str "[MASK_MATH_0000]", str "$x$")] =
      str "ab" ++ str "$x$" ++ str "cd" ++ str "$x$" ++ str "e" ∧
    unmask_content (str "hello") [(str "[MASK_MATH_0000]", str "$x$")] = str "hello" := by
  constructor
  · exact c10_unmask_all_occurrences.1 _ _ _ _ _
      ⟨str "MASK_MATH_0000", by decide, by decide, by decide⟩
      (by decide) (by decide) (by decide)
  · exact c10_unmask_all_occurrences.2 _ _ (by decide)

/-! ### The parse forest and `mask_content` (parser.py lines 36-189)

`pylatexenc` parses the text into a node list; each node carries its byte
offset `pos` and extent `len` in the source text, and environment, group and
math nodes carry a child node list.  `Forest` models such a node list
directly: each constructor is one node together with its right siblings
(`rest`), so plain structural recursion is exactly the source's traversal.
Macro nodes have no `nodelist` attribute (their arguments are inside their
own extent), so the traversal never descends into them; math children exist
but are never visited because math is masked whole (`continue`). -/

inductive Forest where
  | nil : Forest
  | chars (pos len : Nat) (rest : Forest) : Forest
  | macroN (name : Str) (pos len : Nat) (rest : Forest) : Forest
  | math (pos len : Nat) (children rest : Forest) : Forest
  | group (pos len : Nat) (children rest : Forest) : Forest
  | env (name : Str) (pos len : Nat) (children rest : Forest) : Forest
  deriving DecidableEq

/-- `OPAQUE_ENVS` of mask_content (line 81). -/
def OPAQUE_ENVS : List Str :=
  [str "equation", str "align", str "gather", str "eqnarray", str "tabular",
   str "tikzpicture", str "axuodraw", str "algorithmic"]

/-- `CODE_ENVS` of mask_content (line 84). -/
def CODE_ENVS : List Str := [str "lstlisting", str "verbatim", str "minted"]

/-- The macro-name list of traverse_nodes (line 95). -/
def MASKED_MACROS : List Str :=
  [str "cite", str "ref", str "cref", str "label", str "input", str "include",
   str "includegraphics"]

/-- Python `env_name.endswith('*')`. -/
def endsStar (s : Str) : Bool := s.getLast? = some '*'

/-- Python `env_name.replace('*', '')`. -/
def removeStars (s : Str) : Str := s.filter (fun c => c ≠ '*')

/-- Python `s.upper()` on the ASCII names involved. -/
def upper (s : Str) : Str := s.map Char.toUpper

/-- Python `s.replace('*', 'S')`, applied to the uppercased environment name. -/
def starToS (s : Str) : Str := s.map (fun c => if c = '*' then 'S' else c)

/-- A collected mask range `(start_pos, end_pos, type_hint)`. -/
abbrev MaskRange := Nat × Nat × Str

/-- The opaque-environment test of mask_content (lines 104-114).  The nested
Python conditionals emit a whole-environment mask exactly when the name is not
in `['figure*', 'table*']` and either the name itself or the name with all
stars removed is in `OPAQUE_ENVS` (the outer `in OPAQUE_ENVS or
endswith('*')` test is recorded as the first conjunct); in every other case
control falls through to the code-environment test. -/
def opaqueHit (name : Str) : Prop :=
  (name ∈ OPAQUE_ENVS ∨ endsStar name = true) ∧
  ¬ (name = str "figure*" ∨ name = str "table*") ∧
  (name ∈ OPAQUE_ENVS ∨ removeStars name ∈ OPAQUE_ENVS)

instance (name : Str) : Decidable (opaqueHit name) := by
  unfold opaqueHit
  infer_instance

/-- `node.nodelist[0].pos` (unused default 0 for an empty list). -/
def forestFirstPos : Forest → Nat
  | .nil => 0
  | .chars p _ _ => p
  | .macroN _ p _ _ => p
  | .math p _ _ _ => p
  | .group p _ _ _ => p
  | .env _ p _ _ _ => p

/-- `node.nodelist[-1].pos + node.nodelist[-1].len` (unused default 0). -/
def forestLastEnd : Forest → Nat
  | .nil => 0
  | .chars p l r => if r = .nil then p + l else forestLastEnd r
  | .macroN _ p l r => if r = .nil then p + l else forestLastEnd r
  | .math p l _ r => if r = .nil then p + l else forestLastEnd r
  | .group p l _ r => if r = .nil then p + l else forestLastEnd r
  | .env _ p l _ r => if r = .nil then p + l else forestLastEnd r

/-- Translation of `traverse_nodes` (parser.py lines 86-138): collect mask
ranges left to right.  Math and listed macros mask their whole extent; an
opaque environment masks its whole extent without visiting children; a code
environment masks from its first child's start to its last child's end without
visiting children (nothing when it has no children); any other environment and
any group is transparent and only its children are visited. -/
def traverse_nodes : Forest → List MaskRange
  | .nil => []
  | .chars _ _ r => traverse_nodes r
  | .math p l _ r => (p, p + l, str "MATH") :: traverse_nodes r
  | .macroN name p l r =>
    if name ∈ MASKED_MACROS then
      (p, p + l, str "CMD_" ++ upper name) :: traverse_nodes r
    else
      traverse_nodes r
  | .group _ _ c r => traverse_nodes c ++ traverse_nodes r
  | .env name p l c r =>
    (if opaqueHit name then [(p, p + l, str "ENV_" ++ starToS (upper name))]
     else if name ∈ CODE_ENVS then
       (if c = .nil then []
        else [(forestFirstPos c, forestLastEnd c, str "CODE_" ++ upper name)])
     else traverse_nodes c) ++ traverse_nodes r

/-- Stable insertion into a list sorted by descending start offset. -/
def insertDesc (x : MaskRange) : List MaskRange → List MaskRange
  | [] => [x]
  | y :: ys => if x.1 ≤ y.1 then y :: insertDesc x ys else x :: y :: ys

/-- Python `mask_ranges.sort(key=lambda x: x[0], reverse=True)` (stable). -/
def sortDesc (l : List MaskRange) : List MaskRange := l.foldr insertDesc []

/-- The replacement loop of mask_content (lines 159-185): for each range in
the sorted order, skip it when it fails the bounds guard
(`start < 0 or end > len(text)`; the first part is vacuous over `Nat`),
otherwise record `masks[token] = text[start:end]`, bump the counter and splice
the token into the working character list.  Segments are always sliced from
the original `text`. -/
def maskLoop (text : Str) : List MaskRange → Nat → Str → Str × List (Str × Str)
  | [], _, working => (working, [])
  | (s, e, tag) :: rest, c, working =>
    if e ≤ text.length then
      let token := tokenStr tag c
      let out := maskLoop text rest (c + 1) (working.take s ++ token ++ working.drop e)
      (out.1, (token, (text.drop s).take (e - s)) :: out.2)
    else
      maskLoop text rest c working

/-- Translation of `mask_content` (parser.py lines 36-189) on the parse forest
of the text: collect ranges by traversal, sort by start descending, then
replace from the end backwards; returns the masked text and the mask table in
insertion order. -/
def mask_content (text : Str) (nodes : Forest) : Str × List (Str × Str) :=
  maskLoop text (sortDesc (traverse_nodes nodes)) 0 text

/-- Well-formedness of a parse forest against the source text, as `pylatexenc`
guarantees for the node lists it returns: every node has positive extent and
lies inside `[lo, hi]`, siblings are ordered left to right without overlap,
and children lie inside their parent's extent. -/
def wfForest (lo hi : Nat) : Forest → Bool
  | .nil => true
  | .chars p l r =>
    decide (lo ≤ p) && decide (1 ≤ l) && decide (p + l ≤ hi) && wfForest (p + l) hi r
  | .macroN _ p l r =>
    decide (lo ≤ p) && decide (1 ≤ l) && decide (p + l ≤ hi) && wfForest (p + l) hi r
  | .math p l c r =>
    decide (lo ≤ p) && decide (1 ≤ l) && decide (p + l ≤ hi) && wfForest p (p + l) c &&
      wfForest (p + l) hi r
  | .group p l c r =>
    decide (lo ≤ p) && decide (1 ≤ l) && decide (p + l ≤ hi) && wfForest p (p + l) c &&
      wfForest (p + l) hi r
  | .env _ p l c r =>
    decide (lo ≤ p) && decide (1 ≤ l) && decide (p + l ≤ hi) && wfForest p (p + l) c &&
      wfForest (p + l) hi r

/-- Ranges listed in strictly ascending, pairwise disjoint position order,
all inside `[lo, hi]`. -/
def ascRanges : Nat → Nat → List MaskRange → Prop
  | _, _, [] => True
  | lo, hi, (s, e, _) :: rest => lo ≤ s ∧ s < e ∧ e ≤ hi ∧ ascRanges e hi rest

theorem ascRanges_mono :
    ∀ (rs : List MaskRange) {lo hi lo' hi' : Nat}, lo' ≤ lo → hi ≤ hi' →
      ascRanges lo hi rs → ascRanges lo' hi' rs := by
  intro rs
  induction rs with
  | nil => intro lo hi lo' hi' _ _ _; trivial
  | cons r rest ih =>
    obtain ⟨s, e, tag⟩ := r
    intro lo hi lo' hi' hlo hhi h
    obtain ⟨h1, h2, h3, h4⟩ := h
    exact ⟨by omega, h2, by omega, ih le_rfl hhi h4⟩

theorem ascRanges_elem :
    ∀ (rs : List MaskRange) {lo hi : Nat}, ascRanges lo hi rs →
      ∀ r ∈ rs, lo ≤ r.1 ∧ r.1 < r.2.1 ∧ r.2.1 ≤ hi := by
  intro rs
  induction rs with
  | nil => intro _ _ _ r hr; simp at hr
  | cons q rest ih =>
    obtain ⟨s, e, tag⟩ := q
    intro lo hi h r hr
    obtain ⟨h1, h2, h3, h4⟩ := h
    rcases List.mem_cons.1 hr with rfl | hr
    · exact ⟨h1, h2, h3⟩
    · have := ih h4 r hr
      exact ⟨by omega, this.2.1, this.2.2⟩

theorem ascRanges_append {m hi : Nat} :
    ∀ (A : List MaskRange) (lo : Nat) (B : List MaskRange), lo ≤ m → m ≤ hi →
      ascRanges lo m A → ascRanges m hi B → ascRanges lo hi (A ++ B) := by
  intro A
  induction A with
  | nil =>
    intro lo B hlm hmh _ hB
    exact ascRanges_mono B hlm le_rfl hB
  | cons q A' ih =>
    obtain ⟨s, e, tag⟩ := q
    intro lo B hlm hmh hA hB
    obtain ⟨h1, h2, h3, h4⟩ := hA
    exact ⟨h1, h2, by omega, ih e B h3 hmh h4 hB⟩

theorem ascRanges_snoc {s e : Nat} {tag : Str} :
    ∀ (A : List MaskRange) (lo hi : Nat), ascRanges lo hi (A ++ [(s, e, tag)]) →
      ascRanges lo s A ∧ lo ≤ s ∧ s < e ∧ e ≤ hi := by
  intro A
  induction A with
  | nil =>
    intro lo hi h
    obtain ⟨h1, h2, h3, -⟩ := h
    exact ⟨trivial, h1, h2, h3⟩
  | cons q A' ih =>
    obtain ⟨s1, e1, t1⟩ := q
    intro lo hi h
    obtain ⟨h1, h2, h3, h4⟩ := h
    obtain ⟨hA', hes, hse, hehi⟩ := ih e1 hi h4
    exact ⟨⟨h1, h2, hes, hA'⟩, by omega, hse, hehi⟩

theorem wf_bounds :
    ∀ (c : Forest) (lo hi : Nat), wfForest lo hi c = true → c ≠ .nil →
      lo ≤ forestFirstPos c ∧ forestFirstPos c < forestLastEnd c ∧
        forestLastEnd c ≤ hi := by
  intro c
  induction c with
  | nil => intro lo hi _ hne; exact absurd rfl hne
  | chars p l r ih =>
    intro lo hi hwf _
    simp only [wfForest, Bool.and_eq_true, decide_eq_true_eq] at hwf
    obtain ⟨⟨⟨h1, h2⟩, h3⟩, h4⟩ := hwf
    by_cases hr : r = Forest.nil
    · subst hr
      exact ⟨h1, Nat.lt_add_of_pos_right h2, h3⟩
    · have hrest := ih (p + l) hi h4 hr
      simp only [forestFirstPos, forestLastEnd, if_neg hr]
      exact ⟨h1, by omega, hrest.2.2⟩
  | macroN name p l r ih =>
    intro lo hi hwf _
    simp only [wfForest, Bool.and_eq_true, decide_eq_true_eq] at hwf
    obtain ⟨⟨⟨h1, h2⟩, h3⟩, h4⟩ := hwf
    by_cases hr : r = Forest.nil
    · subst hr
      exact ⟨h1, Nat.lt_add_of_pos_right h2, h3⟩
    · have hrest := ih (p + l) hi h4 hr
      simp only [forestFirstPos, forestLastEnd, if_neg hr]
      exact ⟨h1, by omega, hrest.2.2⟩
  | math p l c r ihc ihr =>
    intro lo hi hwf _
    simp only [wfForest, Bool.and_eq_true, decide_eq_true_eq] at hwf
    obtain ⟨⟨⟨⟨h1, h2⟩, h3⟩, hc⟩, h4⟩ := hwf
    by_cases hr : r = Forest.nil
    · subst hr
      exact ⟨h1, Nat.lt_add_of_pos_right h2, h3⟩
    · have hrest := ihr (p + l) hi h4 hr
      simp only [forestFirstPos, forestLastEnd, if_neg hr]
      exact ⟨h1, by omega, hrest.2.2⟩
  | group p l c r ihc ihr =>
    intro lo hi hwf _
    simp only [wfForest, Bool.and_eq_true, decide_eq_true_eq] at hwf
    obtain ⟨⟨⟨⟨h1, h2⟩, h3⟩, hc⟩, h4⟩ := hwf
    by_cases hr : r = Forest.nil
    · subst hr
      exact ⟨h1, Nat.lt_add_of_pos_right h2, h3⟩
    · have hrest := ihr (p + l) hi h4 hr
      simp only [forestFirstPos, forestLastEnd, if_neg hr]
      exact ⟨h1, by omega, hrest.2.2⟩
  | env name p l c r ihc ihr =>
    intro lo hi hwf _
    simp only [wfForest, Bool.and_eq_true, decide_eq_true_eq] at hwf
    obtain ⟨⟨⟨⟨h1, h2⟩, h3⟩, hc⟩, h4⟩ := hwf
    by_cases hr : r = Forest.nil
    · subst hr
      exact ⟨h1, Nat.lt_add_of_pos_right h2, h3⟩
    · have hrest := ihr (p + l) hi h4 hr
      simp only [forestFirstPos, forestLastEnd, if_neg hr]
      exact ⟨h1, by omega, hrest.2.2⟩

/-- The traversal of a well-formed forest yields ranges in strictly
ascending, pairwise disjoint order, all inside `[lo, hi]`.  This is the
source's own invariant argument: a span is emitted for a node only when its
children are not independently visited. -/
theorem wf_traverse :
    ∀ (f : Forest) (lo hi : Nat), wfForest lo hi f = true →
      ascRanges lo hi (traverse_nodes f) := by
  intro f
  induction f with
  | nil => intro lo hi _; trivial
  | chars p l r ih =>
    intro lo hi hwf
    simp only [wfForest, Bool.and_eq_true, decide_eq_true_eq] at hwf
    obtain ⟨⟨⟨h1, h2⟩, h3⟩, h4⟩ := hwf
    exact ascRanges_mono _ (by omega) le_rfl (ih (p + l) hi h4)
  | macroN name p l r ih =>
    intro lo hi hwf
    simp only [wfForest, Bool.and_eq_true, decide_eq_true_eq] at hwf
    obtain ⟨⟨⟨h1, h2⟩, h3⟩, h4⟩ := hwf
    simp only [traverse_nodes]
    split
    · exact ⟨h1, by omega, h3, ih (p + l) hi h4⟩
    · exact ascRanges_mono _ (by omega) le_rfl (ih (p + l) hi h4)
  | math p l c r ihc ihr =>
    intro lo hi hwf
    simp only [wfForest, Bool.and_eq_true, decide_eq_true_eq] at hwf
    obtain ⟨⟨⟨⟨h1, h2⟩, h3⟩, hc⟩, h4⟩ := hwf
    exact ⟨h1, by omega, h3, ihr (p + l) hi h4⟩
  | group p l c r ihc ihr =>
    intro lo hi hwf
    simp only [wfForest, Bool.and_eq_true, decide_eq_true_eq] at hwf
    obtain ⟨⟨⟨⟨h1, h2⟩, h3⟩, hc⟩, h4⟩ := hwf
    exact ascRanges_append _ lo _ (by omega) h3
      (ascRanges_mono _ h1 le_rfl (ihc p (p + l) hc)) (ihr (p + l) hi h4)
  | env name p l c r ihc ihr =>
    intro lo hi hwf
    simp only [wfForest, Bool.and_eq_true, decide_eq_true_eq] at hwf
    obtain ⟨⟨⟨⟨h1, h2⟩, h3⟩, hc⟩, h4⟩ := hwf
    simp only [traverse_nodes]
    split
    · exact ⟨h1, by omega, h3, ihr (p + l) hi h4⟩
    · split
      · split
        · exact ascRanges_mono _ (by omega) le_rfl (ihr (p + l) hi h4)
        case isFalse hne =>
          have hb := wf_bounds c p (p + l) hc hne
          refine ⟨by omega, hb.2.1, by omega, ?_⟩
          exact ascRanges_mono _ (by omega) le_rfl (ihr (p + l) hi h4)
      · exact ascRanges_append _ lo _ (by omega) h3
          (ascRanges_mono _ h1 le_rfl (ihc p (p + l) hc)) (ihr (p + l) hi h4)

theorem insertDesc_last (x : MaskRange) :
    ∀ l, (∀ y ∈ l, x.1 ≤ y.1) → insertDesc x l = l ++ [x] := by
  intro l
  induction l with
  | nil => intro _; rfl
  | cons y ys ih =>
    intro h
    simp only [insertDesc]
    rw [if_pos (h y (List.mem_cons_self y ys)),
      ih (fun z hz => h z (List.mem_cons_of_mem y hz))]
    simp

/-- Sorting an already strictly ascending range list by descending start is
exactly reversal. -/
theorem sortDesc_of_asc :
    ∀ (rs : List MaskRange) {lo hi : Nat}, ascRanges lo hi rs →
      sortDesc rs = rs.reverse := by
  intro rs
  induction rs with
  | nil => intro _ _ _; rfl
  | cons q rest ih =>
    obtain ⟨s, e, tag⟩ := q
    intro lo hi h
    obtain ⟨h1, h2, h3, h4⟩ := h
    have hstep : sortDesc ((s, e, tag) :: rest) = insertDesc (s, e, tag) (sortDesc rest) := rfl
    have hfact : ∀ y ∈ rest.reverse, (s, e, tag).1 ≤ y.1 := by
      intro y hy
      have := ascRanges_elem rest h4 y (List.mem_reverse.1 hy)
      show s ≤ y.1
      omega
    rw [hstep, ih h4, insertDesc_last _ _ hfact, List.reverse_cons]

/-- The working text of the replacement loop, in closed form over a
descending range list: the text left of the rightmost range, masked
recursively at the incremented counter, then the token, then the rest. -/
def maskSpec (text : Str) : List MaskRange → Nat → Str
  | [], _ => text
  | (s, e, tag) :: rest, c =>
    maskSpec (text.take s) rest (c + 1) ++ tokenStr tag c ++ text.drop e

/-- The mask table of the replacement loop, in closed form. -/
def masksOf (text : Str) : List MaskRange → Nat → List (Str × Str)
  | [], _ => []
  | (s, e, tag) :: rest, c =>
    (tokenStr tag c, (text.drop s).take (e - s)) :: masksOf text rest (c + 1)

theorem masksOf_take :
    ∀ (rs : List MaskRange) (text : Str) (mm c : Nat),
      (∀ r ∈ rs, r.2.1 ≤ mm) →
      masksOf (text.take mm) rs c = masksOf text rs c := by
  intro rs
  induction rs with
  | nil => intro _ _ _ _; rfl
  | cons q rest ih =>
    obtain ⟨s, e, tag⟩ := q
    intro text mm c hb
    have he : e ≤ mm := hb (s, e, tag) (List.mem_cons_self _ _)
    have hslice : ((text.take mm).drop s).take (e - s) = (text.drop s).take (e - s) := by
      rw [List.drop_take, List.take_take, min_eq_left (Nat.sub_le_sub_right he s)]
    simp only [masksOf, hslice]
    rw [ih text mm (c + 1) (fun r hr => hb r (List.mem_cons_of_mem _ hr))]

/-- The replacement loop on the reversal of an in-bounds ascending range list
computes the closed forms `maskSpec` and `masksOf`; stated with an untouched
suffix `B` glued after the first `m` characters so that the recursion goes
through. -/
theorem maskLoop_eq :
    ∀ (asc : List MaskRange) (lo m : Nat) (text B : Str) (c : Nat),
      ascRanges lo m asc → m ≤ text.length →
      maskLoop text asc.reverse c (text.take m ++ B) =
        (maskSpec (text.take m) asc.reverse c ++ B, masksOf text asc.reverse c) := by
  intro asc
  induction asc using List.reverseRecOn with
  | nil =>
    intro lo m text B c _ _
    rfl
  | append_singleton init r ih =>
    obtain ⟨s, e, tag⟩ := r
    intro lo m text B c hasc hm
    obtain ⟨hinit, hls, hse, hem⟩ := ascRanges_snoc init lo m hasc
    have hrev : (init ++ [(s, e, tag)]).reverse = (s, e, tag) :: init.reverse := by simp
    have hsm : s ≤ m := by omega
    have hstext : s ≤ text.length := by omega
    have hWtake : (text.take m ++ B).take s = text.take s := by
      rw [List.take_append_eq_append_take, List.take_take,
        min_eq_left hsm, List.length_take, min_eq_left hm,
        show s - m = 0 by omega, List.take_zero, List.append_nil]
    have hWdrop : (text.take m ++ B).drop e = (text.take m).drop e ++ B := by
      rw [List.drop_append_eq_append_drop, List.length_take, min_eq_left hm,
        show e - m = 0 by omega, List.drop_zero]
    have hmtake : (text.take m).take s = text.take s := by
      rw [List.take_take, min_eq_left hsm]
    rw [hrev]
    show (if e ≤ text.length then _ else _) = _
    rw [if_pos (by omega : e ≤ text.length)]
    have hW' : (text.take m ++ B).take s ++ tokenStr tag c ++ (text.take m ++ B).drop e =
        text.take s ++ (tokenStr tag c ++ ((text.take m).drop e ++ B)) := by
      rw [hWtake, hWdrop]
      simp [List.append_assoc]
    simp only [hW']
    rw [ih lo s text (tokenStr tag c ++ ((text.take m).drop e ++ B)) (c + 1) hinit hstext]
    simp only [maskSpec, masksOf, hmtake]
    simp [List.append_assoc]

/-- A type tag is bracket-free; every tag emitted by the traversal is. -/
def TagOK (tg : Str) : Prop := ∀ c ∈ tg, c ≠ '[' ∧ c ≠ ']'

instance (tg : Str) : Decidable (TagOK tg) := by
  unfold TagOK
  infer_instance

theorem bracketed_tokenStr {tg : Str} (h : TagOK tg) (n : Nat) :
    Bracketed (tokenStr tg n) := by
  refine ⟨str "MASK_" ++ tg ++ str "_" ++ pad4 n, ?_, ?_, ?_⟩
  · simp [tokenStr, str]
  · intro hc
    rcases List.mem_append.1 hc with hc | hc
    · rcases List.mem_append.1 hc with hc | hc
      · rcases List.mem_append.1 hc with hc | hc
        · exact absurd hc (by decide)
        · exact (h _ hc).1 rfl
      · exact absurd hc (by decide)
    · exact (pad4_no_special hc).2.1 rfl
  · intro hc
    rcases List.mem_append.1 hc with hc | hc
    · rcases List.mem_append.1 hc with hc | hc
      · rcases List.mem_append.1 hc with hc | hc
        · exact absurd hc (by decide)
        · exact (h _ hc).2 rfl
      · exact absurd hc (by decide)
    · exact (pad4_no_special hc).2.2 rfl

theorem opaque_upper_ok :
    ∀ w ∈ OPAQUE_ENVS, ∀ x ∈ w, Char.toUpper x ≠ '[' ∧ Char.toUpper x ≠ ']' := by
  decide

theorem opaque_no_star : ∀ w ∈ OPAQUE_ENVS, removeStars w = w := by decide

theorem tagOK_env {name : Str} (h : opaqueHit name) :
    TagOK (str "ENV_" ++ starToS (upper name)) := by
  intro ch hch
  rcases List.mem_append.1 hch with hc | hc
  · have : ch = 'E' ∨ ch = 'N' ∨ ch = 'V' ∨ ch = '_' := by simpa [str] using hc
    rcases this with rfl | rfl | rfl | rfl <;> exact ⟨by decide, by decide⟩
  · obtain ⟨x, hx, rfl⟩ := List.mem_map.1 hc
    obtain ⟨y, hy, rfl⟩ := List.mem_map.1 hx
    by_cases hstar : y = '*'
    · subst hstar
      exact ⟨by decide, by decide⟩
    · have hy' : y ∈ removeStars name :=
        List.mem_filter.2 ⟨hy, by simpa using hstar⟩
      have hname : removeStars name ∈ OPAQUE_ENVS := by
        rcases h.2.2 with hn | hn
        · rw [opaque_no_star name hn]
          exact hn
        · exact hn
      have hok := opaque_upper_ok _ hname y hy'
      by_cases hsu : Char.toUpper y = '*'
      · simp only [hsu, if_pos rfl]
        exact ⟨by decide, by decide⟩
      · simp only [if_neg hsu]
        exact hok

theorem tagOK_code {name : Str} (h : name ∈ CODE_ENVS) :
    TagOK (str "CODE_" ++ upper name) := by
  have : name = str "lstlisting" ∨ name = str "verbatim" ∨ name = str "minted" := by
    simpa [CODE_ENVS] using h
  rcases this with rfl | rfl | rfl <;> decide

theorem tagOK_macro {name : Str} (h : name ∈ MASKED_MACROS) :
    TagOK (str "CMD_" ++ upper name) := by
  have : name = str "cite" ∨ name = str "ref" ∨ name = str "cref" ∨ name = str "label" ∨
      name = str "input" ∨ name = str "include" ∨ name = str "includegraphics" := by
    simpa [MASKED_MACROS] using h
  rcases this with rfl | rfl | rfl | rfl | rfl | rfl | rfl <;> decide

theorem tagOK_traverse : ∀ (f : Forest), ∀ r ∈ traverse_nodes f, TagOK r.2.2 := by
  intro f
  induction f with
  | nil => intro r hr; simp [traverse_nodes] at hr
  | chars p l rest ih => exact ih
  | macroN name p l rest ih =>
    intro r hr
    simp only [traverse_nodes] at hr
    split at hr
    case isTrue hname =>
      rcases List.mem_cons.1 hr with rfl | hr
      · exact tagOK_macro hname
      · exact ih r hr
    case isFalse => exact ih r hr
  | math p l c rest ihc ihr =>
    intro r hr
    simp only [traverse_nodes] at hr
    rcases List.mem_cons.1 hr with rfl | hr
    · intro ch hch
      have : ch = 'M' ∨ ch = 'A' ∨ ch = 'T' ∨ ch = 'H' := by simpa [str] using hch
      rcases this with rfl | rfl | rfl | rfl <;> exact ⟨by decide, by decide⟩
    · exact ihr r hr
  | group p l c rest ihc ihr =>
    intro r hr
    simp only [traverse_nodes] at hr
    rcases List.mem_append.1 hr with hr | hr
    · exact ihc r hr
    · exact ihr r hr
  | env name p l c rest ihc ihr =>
    intro r hr
    simp only [traverse_nodes] at hr
    rcases List.mem_append.1 hr with hr | hr
    · split at hr
      case isTrue hname =>
        rcases List.mem_singleton.1 hr with rfl
        exact tagOK_env hname
      case isFalse =>
        split at hr
        case isTrue hname =>
          split at hr
          · simp at hr
          · rcases List.mem_singleton.1 hr with rfl
            exact tagOK_code hname
        case isFalse => exact ihc r hr
    · exact ihr r hr

/-- A bracketed string that is not a token with counter `≥ c`, does not occur
in the text, and is bracket-compatible with all tags, cannot occur in the
masked text built from counters `≥ c`. -/
theorem token_not_in_maskSpec :
    ∀ (asc : List MaskRange) (lo : Nat) (text : Str) (c : Nat) (u : Str),
      Bracketed u → ascRanges lo text.length asc →
      (∀ r ∈ asc, TagOK r.2.2) →
      (∀ tg n, c ≤ n → u ≠ tokenStr tg n) →
      ¬ u <:+: text →
      ¬ u <:+: maskSpec text asc.reverse c := by
  intro asc
  induction asc using List.reverseRecOn with
  | nil =>
    intro lo text c u _ _ _ _ hntext
    exact hntext
  | append_singleton init r ih =>
    obtain ⟨s, e, tag⟩ := r
    intro lo text c u hub hasc htags hcnt hntext hocc
    obtain ⟨hinit, hls, hse, hetext⟩ := ascRanges_snoc init lo text.length hasc
    have hrev : (init ++ [(s, e, tag)]).reverse = (s, e, tag) :: init.reverse := by simp
    rw [hrev] at hocc
    simp only [maskSpec] at hocc
    obtain ⟨a, b, heq⟩ := hocc
    have htagok : TagOK tag := htags (s, e, tag) (by simp)
    have htokb : Bracketed (tokenStr tag c) := bracketed_tokenStr htagok c
    rcases bracket_occurrence hub htokb heq.symm with ⟨-, hoccA⟩ | ⟨-, hoccY⟩ | ⟨hut, -, -⟩
    · have hlen : (text.take s).length = s := by
        rw [List.length_take]
        omega
      refine ih lo (text.take s) (c + 1) u hub ?_ ?_ ?_ ?_ hoccA
      · rw [hlen]
        exact hinit
      · exact fun q hq => htags q (List.mem_append_left _ hq)
      · exact fun tg n hn => hcnt tg n (by omega)
      · exact fun hc => hntext (hc.trans (List.take_prefix s text).isInfix)
    · exact hntext (hoccY.trans (List.drop_suffix e text).isInfix)
    · exact hcnt tag c le_rfl hut

/-- Undoing the replacements: folding `replaceAll` over the mask table (in
insertion order) over the masked text restores the text, provided no token
occurs in the ambient original text `T`. -/
theorem unmask_maskSpec :
    ∀ (asc : List MaskRange) (lo : Nat) (text tail T : Str) (c : Nat),
      ascRanges lo text.length asc →
      (text ++ tail) <:+: T →
      (∀ r ∈ asc, TagOK r.2.2) →
      (∀ p ∈ masksOf text asc.reverse c, ¬ p.1 <:+: T) →
      List.foldl (fun acc p => replaceAll p.1 p.2 acc)
        (maskSpec text asc.reverse c ++ tail) (masksOf text asc.reverse c) = text ++ tail := by
  intro asc
  induction asc using List.reverseRecOn with
  | nil => intro lo text tail T c _ _ _ _; rfl
  | append_singleton init r ih =>
    obtain ⟨s, e, tag⟩ := r
    intro lo text tail T c hasc hsub htags hkeys
    obtain ⟨hinit, hls, hse, hetext⟩ := ascRanges_snoc init lo text.length hasc
    have hrev : (init ++ [(s, e, tag)]).reverse = (s, e, tag) :: init.reverse := by simp
    rw [hrev]
    simp only [maskSpec, masksOf, List.foldl_cons]
    have hlen : (text.take s).length = s := by
      rw [List.length_take]
      omega
    have htagok : TagOK tag := htags (s, e, tag) (by simp)
    have htokb : Bracketed (tokenStr tag c) := bracketed_tokenStr htagok c
    have htokT : ¬ tokenStr tag c <:+: T := by
      refine hkeys (tokenStr tag c, (text.drop s).take (e - s)) ?_
      rw [hrev]
      simp [masksOf]
    have htokText : ¬ tokenStr tag c <:+: text := fun hc =>
      htokT ((hc.trans (List.prefix_append text tail).isInfix).trans hsub)
    have hnotA : ¬ tokenStr tag c <:+:
        maskSpec (text.take s) init.reverse (c + 1) := by
      refine token_not_in_maskSpec init lo (text.take s) (c + 1) (tokenStr tag c) htokb ?_
        (fun q hq => htags q (List.mem_append_left _ hq)) ?_ ?_
      · rw [hlen]
        exact hinit
      · intro tg n hn hc
        have := tokenStr_inj_counter hc
        omega
      · exact fun hc => htokText (hc.trans (List.take_prefix s text).isInfix)
    have hnotSfx : ¬ tokenStr tag c <:+: (text.drop e ++ tail) := by
      intro hc
      refine htokT (hc.trans ?_)
      refine List.IsSuffix.isInfix ⟨text.take e, ?_⟩ |>.trans hsub
      rw [← List.append_assoc, List.take_append_drop]
    have hassoc : maskSpec (text.take s) init.reverse (c + 1) ++ tokenStr tag c ++
        text.drop e ++ tail =
        maskSpec (text.take s) init.reverse (c + 1) ++ tokenStr tag c ++
          (text.drop e ++ tail) := by
      simp [List.append_assoc]
    rw [hassoc, replaceAll_unique htokb hnotA hnotSfx]
    have hseg : (text.drop s).take (e - s) ++ text.drop e = text.drop s := by
      have h1 : List.drop (e - s) (text.drop s) = text.drop e := by
        rw [List.drop_drop]
        congr 1
        omega
      rw [← h1, List.take_append_drop]
    have hstep : maskSpec (text.take s) init.reverse (c + 1) ++
        (text.drop s).take (e - s) ++ (text.drop e ++ tail) =
        maskSpec (text.take s) init.reverse (c + 1) ++ (text.drop s ++ tail) := by
      rw [List.append_assoc]
      congr 1
      rw [← List.append_assoc, hseg]
    rw [hstep]
    have hends : ∀ q ∈ init.reverse, q.2.1 ≤ s :=
      fun q hq => (ascRanges_elem init hinit q (List.mem_reverse.1 hq)).2.2
    have hmasks : masksOf (text.take s) init.reverse (c + 1) =
        masksOf text init.reverse (c + 1) :=
      masksOf_take init.reverse text s (c + 1) hends
    rw [← hmasks]
    have hglue : text.take s ++ (text.drop s ++ tail) = text ++ tail := by
      rw [← List.append_assoc, List.take_append_drop]
    rw [ih lo (text.take s) (text.drop s ++ tail) T (c + 1) ?_ ?_ ?_ ?_]
    · exact hglue
    · rw [hlen]
      exact hinit
    · rw [hglue]
      exact hsub
    · exact fun q hq => htags q (List.mem_append_left _ hq)
    · intro p hp
      rw [hmasks] at hp
      refine hkeys p ?_
      rw [hrev]
      simp only [masksOf]
      exact List.mem_cons_of_mem _ hp

theorem ascRanges_pairwise :
    ∀ (rs : List MaskRange) {lo hi : Nat}, ascRanges lo hi rs →
      List.Pairwise (fun r1 r2 : MaskRange => r1.2.1 ≤ r2.1) rs := by
  intro rs
  induction rs with
  | nil => intro _ _ _; exact List.Pairwise.nil
  | cons q rest ih =>
    obtain ⟨s, e, tag⟩ := q
    intro lo hi h
    obtain ⟨h1, h2, h3, h4⟩ := h
    refine List.Pairwise.cons ?_ (ih h4)
    intro r hr
    have := ascRanges_elem rest h4 r hr
    show e ≤ r.1
    omega

/-- The parse forest of `The $E=mc^2$ law is due to \cite{einstein}.` as
`pylatexenc` produces it: chars, inline math at offsets 4-12, chars, a `cite`
macro node at offsets 27-42 whose extent includes its argument, chars. -/
def sampleForest : Forest :=
  .chars 0 4 (.math 4 8 (.chars 5 6 .nil)
    (.chars 12 15 (.macroN (str "cite") 27 15 (.chars 42 1 .nil))))

def sampleText : Str := str "The $E=mc^2$ law is due to \\cite{einstein}."

/-- C1 (amended): for every document text and well-formed parse forest of it,
if no generated mask token already occurs in the original text, then
unmask_content applied to mask_content's masked text and table reproduces the
text exactly: no character outside masked spans is lost or reordered and every
token substitution is reversed. -/
theorem c1_round_trip_amended (text : Str) (nodes : Forest)
    (hwf : wfForest 0 text.length nodes = true)
    (hno : ∀ p ∈ (mask_content text nodes).2, ¬ p.1 <:+: text) :
    unmask_content (mask_content text nodes).1 (mask_content text nodes).2 = text := by
  have hasc := wf_traverse nodes 0 text.length hwf
  have hmc : mask_content text nodes =
      (maskSpec text (traverse_nodes nodes).reverse 0,
       masksOf text (traverse_nodes nodes).reverse 0) := by
    unfold mask_content
    rw [sortDesc_of_asc _ hasc]
    have h := maskLoop_eq (traverse_nodes nodes) 0 text.length text [] 0 hasc le_rfl
    simpa using h
  rw [hmc] at hno ⊢
  have h := unmask_maskSpec (traverse_nodes nodes) 0 text [] text 0 hasc (by simp)
    (tagOK_traverse nodes) (by simpa using hno)
  simpa [unmask_content] using h

/-- C1 witness: the round trip holds on the sample text and its parse forest,
whose hypotheses hold by evaluation. -/
theorem c1_round_trip_amended_witness :
    wfForest 0 sampleText.length sampleForest = true ∧
    (∀ p ∈ (mask_content sampleText sampleForest).2, ¬ p.1 <:+: sampleText) ∧
    unmask_content (mask_content sampleText sampleForest).1
      (mask_content sampleText sampleForest).2 = sampleText :=
  ⟨by decide, by decide, c1_round_trip_amended sampleText sampleForest (by decide) (by decide)⟩

/-- The parse forest of `[MASK_MATH_0000]$x$`: a chars node for the literal
bracketed text, then inline math `$x$`. -/
def collisionForest : Forest := .chars 0 16 (.math 16 3 (.chars 17 1 .nil) .nil)

def collisionText : Str := str "[MASK_MATH_0000]$x$"

/-- C1 counterexample: on a well-formed parse of `[MASK_MATH_0000]$x$` the
mask token generated for the math span collides with the literal text, so
unmasking the masked output with its table does not reproduce the input
(it yields a doubled math span instead). -/
theorem c1_round_trip_counterexample :
    wfForest 0 collisionText.length collisionForest = true ∧
    unmask_content (mask_content collisionText collisionForest).1
      (mask_content collisionText collisionForest).2 ≠ collisionText := by
  constructor
  · decide
  · decide

/-- C5: on a well-formed parse forest the set of mask ranges collected during
one mask_content call is pairwise non-overlapping, and every range lies fully
within the text bounds (so the replacement guard never skips one). -/
theorem c5_ranges_disjoint_in_bounds (text : Str) (nodes : Forest)
    (hwf : wfForest 0 text.length nodes = true) :
    List.Pairwise (fun r1 r2 : MaskRange => r1.2.1 ≤ r2.1) (traverse_nodes nodes) ∧
    (∀ r ∈ traverse_nodes nodes, r.1 < r.2.1 ∧ r.2.1 ≤ text.length) := by
  have hasc := wf_traverse nodes 0 text.length hwf
  refine ⟨ascRanges_pairwise _ hasc, fun r hr => ?_⟩
  have := ascRanges_elem _ hasc r hr
  exact ⟨this.2.1, this.2.2⟩

/-- C5 witness on the sample parse forest. -/
theorem c5_ranges_disjoint_in_bounds_witness :
    wfForest 0 sampleText.length sampleForest = true ∧
    (List.Pairwise (fun r1 r2 : MaskRange => r1.2.1 ≤ r2.1)
        (traverse_nodes sampleForest) ∧
      (∀ r ∈ traverse_nodes sampleForest, r.1 < r.2.1 ∧ r.2.1 ≤ sampleText.length)) :=
  ⟨by decide, c5_ranges_disjoint_in_bounds sampleText sampleForest (by decide)⟩

/-- C6 counterexample: mask_content numbers tokens in descending start-offset
order (the replacement order), so on the scenario input the math span gets
counter 1 and the citation counter 0 — not the numbering the claim states. -/
theorem c6_scenario_counterexample :
    (mask_content sampleText sampleForest).1 ≠
      str "The [MASK_MATH_0000] law is due to [MASK_CMD_CITE_0001]." := by
  decide

/-- C6 (amended): on the exact input `The $E=mc^2$ law is due to
\cite{einstein}.` mask_content returns masked text
`The [MASK_MATH_0001] law is due to [MASK_CMD_CITE_0000].` and the table
mapping [MASK_CMD_CITE_0000] to the citation and [MASK_MATH_0001] to the math
(counters zero-padded, increasing from 0 in the descending start-offset
processing order); unmasking reproduces the original string exactly. -/
theorem c6_scenario_amended :
    mask_content sampleText sampleForest =
      (str "The [MASK_MATH_0001] law is due to [MASK_CMD_CITE_0000].",
       [(str "[MASK_CMD_CITE_0000]", str "\\cite{einstein}"),
        (str "[MASK_MATH_0001]", str "$E=mc^2$")]) ∧
    unmask_content (mask_content sampleText sampleForest).1
      (mask_content sampleText sampleForest).2 = sampleText := by
  constructor
  · decide
  · decide

def lstText : Str := str "\\begin{lstlisting}[language=Python]\nprint(1)\n\\end{lstlisting}"

/-- The parse forest of `lstText` under the custom context: the bracketed
options are parsed as an argument of the environment, so the only child node
is the chars node holding the inner code line at offsets 35-45. -/
def lstForest : Forest := .env (str "lstlisting") 0 61 (.chars 35 10 .nil) .nil

/-- C7: every code-content environment masks only the inner content range,
from the first child's start to the last child's end, as a single
CODE_<NAME> token; on the lstlisting scenario the wrapper and bracketed
options stay untouched and only the inner line is masked. -/
theorem c7_code_env_masks_inner_only :
    (∀ (name : Str) (p l : Nat) (c r : Forest), name ∈ CODE_ENVS → c ≠ .nil →
      traverse_nodes (.env name p l c r) =
        (forestFirstPos c, forestLastEnd c, str "CODE_" ++ upper name) ::
          traverse_nodes r) ∧
    mask_content lstText lstForest =
      (str "\\begin{lstlisting}[language=Python][MASK_CODE_LSTLISTING_0000]\\end{lstlisting}",
       [(str "[MASK_CODE_LSTLISTING_0000]", str "\nprint(1)\n")]) := by
  constructor
  · intro name p l c r hname hc
    have hnotop : ¬ opaqueHit name := by
      rcases (show name = str "lstlisting" ∨ name = str "verbatim" ∨ name = str "minted" by
        simpa [CODE_ENVS] using hname) with rfl | rfl | rfl <;> decide
    simp only [traverse_nodes, if_neg hnotop, if_pos hname, if_neg hc]
    simp
  · decide

/-- C7 witness: a concrete code environment with one child masks exactly the
child range. -/
theorem c7_code_env_masks_inner_only_witness :
    traverse_nodes (.env (str "verbatim") 0 20 (.chars 8 4 .nil) .nil) =
      [(8, 12, str "CODE_VERBATIM")] := by
  have h := c7_code_env_masks_inner_only.1 (str "verbatim") 0 20
    (.chars 8 4 .nil) .nil (by decide) (by decide)
  rw [h]
  decide

theorem opaque_not_star : ∀ w ∈ OPAQUE_ENVS, endsStar w = false := by decide

theorem code_not_star : ∀ w ∈ CODE_ENVS, endsStar w = false := by decide

/-- C8: an environment whose name ends with a star is masked entirely exactly
when its name with the stars removed is in the configured opaque set; starred
variants of non-opaque names (figure*, table* in particular) stay transparent
and their children are still traversed. -/
theorem c8_starred_env_opaque_iff_base :
    ∀ (name : Str) (p l : Nat) (c r : Forest), endsStar name = true →
      (removeStars name ∈ OPAQUE_ENVS →
        traverse_nodes (.env name p l c r) =
          (p, p + l, str "ENV_" ++ starToS (upper name)) :: traverse_nodes r) ∧
      (removeStars name ∉ OPAQUE_ENVS →
        traverse_nodes (.env name p l c r) = traverse_nodes c ++ traverse_nodes r) := by
  intro name p l c r hstar
  constructor
  · intro hbase
    have hhit : opaqueHit name := by
      refine ⟨Or.inr hstar, ?_, Or.inr hbase⟩
      rintro (rfl | rfl)
      · exact absurd hbase (by decide)
      · exact absurd hbase (by decide)
    simp only [traverse_nodes, if_pos hhit]
    simp
  · intro hbase
    have hnotop : ¬ opaqueHit name := by
      intro hh
      rcases hh.2.2 with hn | hn
      · rw [opaque_not_star name hn] at hstar
        exact Bool.noConfusion hstar
      · exact hbase hn
    have hnotcode : name ∉ CODE_ENVS := by
      intro hn
      rw [code_not_star name hn] at hstar
      exact Bool.noConfusion hstar
    simp only [traverse_nodes, if_neg hnotop, if_neg hnotcode]

/-- C8 witness: equation* is masked whole with the star normalised in the
tag; figure* stays transparent and its math child is still collected. -/
theorem c8_starred_env_opaque_iff_base_witness :
    traverse_nodes (.env (str "equation*") 3 10 .nil .nil) =
      [(3, 13, str "ENV_EQUATIONS")] ∧
    traverse_nodes (.env (str "figure*") 0 20 (.math 8 4 .nil .nil) .nil) =
      [(8, 12, str "MATH")] := by
  constructor
  · have h := (c8_starred_env_opaque_iff_base (str "equation*") 3 10 .nil .nil
      (by decide)).1 (by decide)
    rw [h]
    decide
  · have h := (c8_starred_env_opaque_iff_base (str "figure*") 0 20
      (.math 8 4 .nil .nil) .nil (by decide)).2 (by decide)
    rw [h]
    decide

/-! ### `smart_split` (translator.py lines 37-62) -/

/-- The scan behind Python `re.split(r'(\n\n+)', text)`: pieces alternate with
the captured separators (leftmost maximal runs of two or more newlines), and
because of the capture group the separators are kept in the result.  `fuel ≥
input length` suffices; the accumulator holds the current piece reversed. -/
def spGo : Nat → Str → Str → List Str
  | _, acc, [] => [acc.reverse]
  | 0, acc, s => [acc.reverse ++ s]
  | f + 1, acc, ch :: cs =>
    if ch = '\n' ∧ cs.head? = some '\n' then
      acc.reverse :: (ch :: cs.takeWhile (fun x => x = '\n')) ::
        spGo f [] (cs.dropWhile (fun x => x = '\n'))
    else
      spGo f (ch :: acc) cs

/-- Python `re.split(r'(\n\n+)', text)` with the capture group kept. -/
def splitParas (s : Str) : List Str := spGo s.length [] s

/-- The chunk-building loop of smart_split: close the running chunk once
adding the next paragraph would exceed `max_chars` and the running chunk is
non-empty (Python list truthiness); the final running chunk is emitted when
non-empty. -/
def ssGo (maxChars : Nat) : List Str → List Str → Nat → List Str
  | [], cur, _ => if cur = [] then [] else [cur.flatten]
  | p :: ps, cur, len =>
    if len + p.length > maxChars ∧ cur ≠ [] then
      cur.flatten :: ssGo maxChars ps [p] p.length
    else
      ssGo maxChars ps (cur ++ [p]) (len + p.length)

/-- Translation of `smart_split` (translator.py lines 37-62). -/
def smart_split (text : Str) (maxChars : Nat) : List Str :=
  ssGo maxChars (splitParas text) [] 0

theorem spGo_flatten :
    ∀ (f : Nat) (acc s : Str), s.length ≤ f →
      (spGo f acc s).flatten = acc.reverse ++ s := by
  intro f
  induction f with
  | zero =>
    intro acc s hs
    have : s = [] := List.eq_nil_of_length_eq_zero (by omega)
    subst this
    simp [spGo]
  | succ f ih =>
    intro acc s hs
    match s with
    | [] => simp [spGo]
    | ch :: cs =>
      simp only [spGo]
      split
      case isTrue h =>
        have hdw : (cs.dropWhile (fun x => x = '\n')).length ≤ f := by
          have := (List.dropWhile_suffix (l := cs) (fun x => x = '\n')).length_le
          simp at hs
          omega
        simp only [List.flatten_cons, ih [] _ hdw, List.reverse_nil, List.nil_append]
        rw [List.cons_append, List.takeWhile_append_dropWhile]
      case isFalse h =>
        rw [ih (ch :: acc) cs (by simp at hs; omega)]
        simp

theorem ssGo_flatten (maxChars : Nat) :
    ∀ (ps cur : List Str) (len : Nat),
      (ssGo maxChars ps cur len).flatten = cur.flatten ++ ps.flatten := by
  intro ps
  induction ps with
  | nil =>
    intro cur len
    simp only [ssGo]
    split
    case isTrue h => simp [h]
    case isFalse h => simp
  | cons p ps ih =>
    intro cur len
    simp only [ssGo]
    split
    case isTrue h =>
      simp only [List.flatten_cons, ih]
      simp
    case isFalse h =>
      rw [ih]
      simp

/-- C4: for every masked text and every max_chars at least 1, concatenating
the chunks returned by smart_split in order reproduces the text exactly: no
character, including the blank-line separators, is lost, duplicated or
reordered. -/
theorem c4_smart_split_lossless (text : Str) (maxChars : Nat) (h : 1 ≤ maxChars) :
    (smart_split text maxChars).flatten = text := by
  unfold smart_split splitParas
  rw [ssGo_flatten, spGo_flatten text.length [] text le_rfl]
  simp

/-- C4 witness at a concrete text and bound. -/
theorem c4_smart_split_lossless_witness :
    1 ≤ 3 ∧ (smart_split (str "ab\n\n\ncd e\n\nf") 3).flatten = str "ab\n\n\ncd e\n\nf" :=
  ⟨by decide, c4_smart_split_lossless (str "ab\n\n\ncd e\n\nf") 3 (by decide)⟩

/-! ### The translate-critique-fix pipeline (translator.py lines 64-216)

The LangGraph state machine built by `build_graph`: entry point `translate`,
unconditional edge translate → critic, conditional edges critic → END on
"pass" and critic → fixer on "fail", unconditional edge fixer → critic.  The
LLM services are modelled as oracles indexed by invocation count; `none`
models an invocation that raises (for the critique: a response whose parse
raises).  The runner's fuel models LangGraph's recursion limit: a `none` run
result means the limit was hit and the runner raised GraphRecursionError. -/

structure TranslationState where
  original_chunk : String
  translated_chunk : String
  failed_attempts : Nat
  critic_errors : List String
  deriving DecidableEq

/-- A parsed critique response: the three booleans and the error list, with
Python's `result.get(key, default)` defaults already applied. -/
structure CritResult where
  safe : Bool
  syntax_valid : Bool
  quality_pass : Bool
  errors : List String
  deriving DecidableEq

/-- Node C, `translate_node` (lines 66-94): on success store the translation
and reset failed_attempts; when the call raises, fall back to the original
chunk, set failed_attempts to 999 and record the error. -/
def translate_node (svc : Option String) (s : TranslationState) : TranslationState :=
  match svc with
  | some t => { s with translated_chunk := t, failed_attempts := 0 }
  | none =>
    { s with
        translated_chunk := s.original_chunk
        failed_attempts := 999
        critic_errors := ["LLM Call Failed"] }

/-- Node D, `critic_node` (lines 96-142): a parsed response passes iff all
three booleans are true; otherwise its error list (or a synthetic
"Unknown failure" when that list is empty) becomes the critic errors; a
response whose parse raises yields the synthetic "Critic parsing failed". -/
def critic_node (resp : Option CritResult) (s : TranslationState) : TranslationState :=
  match resp with
  | none => { s with critic_errors := ["Critic parsing failed"] }
  | some r =>
    if r.safe && r.syntax_valid && r.quality_pass then { s with critic_errors := [] }
    else if r.errors = [] then { s with critic_errors := ["Unknown failure"] }
    else { s with critic_errors := r.errors }

/-- `fixer_node` (lines 144-184): increment the failure count; above the cap
of 3, revert to the original chunk and clear the errors; otherwise invoke the
repair service, keeping the current translation when it raises. -/
def fixer_node (svc : Option String) (s : TranslationState) : TranslationState :=
  let failures := s.failed_attempts + 1
  if failures > 3 then
    { s with
        translated_chunk := s.original_chunk
        failed_attempts := failures
        critic_errors := [] }
  else
    match svc with
    | some fixed => { s with translated_chunk := fixed, failed_attempts := failures }
    | none => { s with failed_attempts := failures }

/-- `check_critic` (lines 187-191): pass iff the error list is empty. -/
def check_critic (s : TranslationState) : String :=
  if s.critic_errors = [] then "pass" else "fail"

/-- The graph's nodes; `done` is LangGraph's END. -/
inductive GNode where
  | translate
  | critic
  | fixer
  | done
  deriving DecidableEq

/-- A run of the graph compiled by `build_graph`, counting service
invocations: i, j, k index the translate, critique and repair oracles.  The
result carries the final state and counters; `none` means the step limit was
exhausted before reaching END. -/
def runGraph (tSvc : Nat → Option String) (cSvc : Nat → Option CritResult)
    (fSvc : Nat → Option String) :
    Nat → GNode → TranslationState → Nat → Nat → Nat →
      Option (TranslationState × Nat × Nat × Nat)
  | 0, _, _, _, _, _ => none
  | _ + 1, .done, s, i, j, k => some (s, i, j, k)
  | f + 1, .translate, s, i, j, k =>
    runGraph tSvc cSvc fSvc f .critic (translate_node (tSvc i) s) (i + 1) j k
  | f + 1, .critic, s, i, j, k =>
    let s2 := critic_node (cSvc j) s
    runGraph tSvc cSvc fSvc f
      (if check_critic s2 = "pass" then .done else .fixer) s2 i (j + 1) k
  | f + 1, .fixer, s, i, j, k =>
    runGraph tSvc cSvc fSvc f .critic (fixer_node (fSvc k) s) i j (k + 1)

theorem critic_node_errors (resp : Option CritResult) (s : TranslationState) :
    (critic_node resp s).critic_errors =
      (match resp with
       | none => ["Critic parsing failed"]
       | some r =>
         if r.safe && r.syntax_valid && r.quality_pass then []
         else if r.errors = [] then ["Unknown failure"] else r.errors) := by
  match resp with
  | none => rfl
  | some r =>
    simp only [critic_node]
    by_cases hb : (r.safe && r.syntax_valid && r.quality_pass) = true
    · rw [if_pos hb, if_pos hb]
    · rw [if_neg hb, if_neg hb]
      by_cases he : r.errors = []
      · rw [if_pos he, if_pos he]
      · rw [if_neg he, if_neg he]

/-- C2 (what the code actually does): with a critique service whose verdict
fails on every invocation, the pipeline never reaches END from any of its
nodes, whatever the step limit: the fixer's forced fallback clears
critic_errors to exit the loop, but the fixer → critic edge re-runs the
critique, which repopulates them, so the loop never terminates and the runner
hits its recursion limit.  In particular the run does not stop after
cap+1 = 4 cycles with translated_chunk = original_chunk as claimed. -/
theorem c2_always_failing_critique_never_terminates
    (tSvc fSvc : Nat → Option String) (cSvc : Nat → Option CritResult)
    (hfail : ∀ j s, (critic_node (cSvc j) s).critic_errors ≠ []) :
    ∀ (fuel : Nat) (s : TranslationState) (i j k : Nat),
      runGraph tSvc cSvc fSvc fuel .translate s i j k = none ∧
      runGraph tSvc cSvc fSvc fuel .critic s i j k = none ∧
      runGraph tSvc cSvc fSvc fuel .fixer s i j k = none := by
  intro fuel
  induction fuel with
  | zero => intro s i j k; exact ⟨rfl, rfl, rfl⟩
  | succ f ih =>
    intro s i j k
    refine ⟨?_, ?_, ?_⟩
    · exact (ih (translate_node (tSvc i) s) (i + 1) j k).2.1
    · have hchk : check_critic (critic_node (cSvc j) s) = "fail" := by
        unfold check_critic
        rw [if_neg (hfail j s)]
      simp only [runGraph, hchk]
      rw [if_neg (by decide : ¬ ("fail" : String) = "pass")]
      exact (ih (critic_node (cSvc j) s) i (j + 1) k).2.2
    · exact (ih (fixer_node (fSvc k) s) i j (k + 1)).2.1

/-- C2 witness: a concrete always-failing critique, run from the initial
state of a chunk with a generous step limit, returns no result. -/
theorem c2_always_failing_critique_never_terminates_witness :
    runGraph (fun _ => some "T") (fun _ => some ⟨false, false, false, ["bad"]⟩)
      (fun _ => some "F") 25 .translate ⟨"x", "", 0, []⟩ 0 0 0 = none := by
  have h := c2_always_failing_critique_never_terminates
    (fun _ => some "T") (fun _ => some "F")
    (fun _ => some ⟨false, false, false, ["bad"]⟩)
    (fun j s => by rw [critic_node_errors]; simp)
    25 ⟨"x", "", 0, []⟩ 0 0 0
  exact h.1

/-- C3 counterexample: with a translation service that raises on every
invocation — and a critique service that happens to always fail, which the
claim's premise allows since it constrains only the translation service —
the state does not transition from Translate directly to Done: the run
enters Critique, loops, exhausts the recursion limit of 25 and the runner
raises instead of returning a state. -/
theorem c3_translate_outage_counterexample :
    runGraph (fun _ => none) (fun _ => some ⟨false, false, false, ["bad"]⟩)
      (fun _ => none) 25 .translate ⟨"chunk", "", 0, []⟩ 0 0 0 = none := by
  decide

/-- C3 (amended): if every translation invocation raises, translate_node
catches the exception (nothing propagates from it), sets translated_chunk to
the original chunk, failed_attempts to 999 and records the error
"LLM Call Failed"; control then flows to Critique — not directly to Done:
the critique counter advances by one — and when the critique passes the
identity translation, the run reaches Done with translated_chunk equal to
the original chunk and the recorded error overwritten by the passing
critique. -/
theorem c3_translate_outage_amended (orig : String) (i j k : Nat) :
    translate_node none ⟨orig, "", 0, []⟩ = ⟨orig, orig, 999, ["LLM Call Failed"]⟩ ∧
    runGraph (fun _ => none) (fun _ => some ⟨true, true, true, []⟩) (fun _ => none)
      10 .translate ⟨orig, "", 0, []⟩ i j k =
      some (⟨orig, orig, 999, []⟩, i + 1, j + 1, k) := by
  constructor
  · rfl
  · rfl

/-- C9: critic_node reports a passing critique (empty critic_errors) if and
only if the verification response is parseable and all three booleans safe,
syntax_valid and quality_pass are true; an unparseable response yields the
synthetic failing error "Critic parsing failed", never an empty error list. -/
theorem c9_critic_fail_closed (resp : Option CritResult) (s : TranslationState) :
    ((critic_node resp s).critic_errors = [] ↔
      ∃ r, resp = some r ∧ r.safe = true ∧ r.syntax_valid = true ∧
        r.quality_pass = true) ∧
    (critic_node none s).critic_errors = ["Critic parsing failed"] ∧
    ("Critic parsing failed" :: ([] : List String)) ≠ [] := by
  refine ⟨⟨?_, ?_⟩, rfl, by decide⟩
  · intro h
    match resp with
    | none => simp [critic_node] at h
    | some r =>
      refine ⟨r, rfl, ?_⟩
      rw [critic_node_errors] at h
      have h2 : (if (r.safe && r.syntax_valid && r.quality_pass) = true then []
          else if r.errors = [] then ["Unknown failure"] else r.errors) = ([] : List String) := h
      by_cases hb : (r.safe && r.syntax_valid && r.quality_pass) = true
      · simpa [Bool.and_eq_true, and_assoc] using hb
      · rw [if_neg hb] at h2
        split at h2
        · simp at h2
        · next hne => exact absurd h2 hne
  · rintro ⟨r, rfl, h1, h2, h3⟩
    rw [critic_node_errors]
    simp [h1, h2, h3]
